import Mathlib

set_option maxHeartbeats 1000000

/-!
Shallow embedding of the Tobii Pro Lab AOI run-merging pipeline
(`tpl_metrics_aois_aggregation_le20ms_batch.py`, the "at-most" variant, and
`branches/tpl_metrics_aois_aggregation_20ms_batch.py`, the "exact" variant).

Modelling conventions, matching the pandas source:
* A numeric cell that failed `pd.to_numeric(..., errors="coerce")` is NaN; we
  model a numeric cell as `Option Int`, with `none` playing the role of NaN.
  Pandas comparisons (`eq`, `le`, `gt`) are false whenever NaN is involved,
  and `ne` is true; NaN sorts last in `sort_values`.
* The dataframe is a `List Row`.  The optional `EventIndex` column is modelled
  by a table-level flag `hasEventIndex`; the per-row field `eventIndex` is only
  meaningful when the flag is set.
* `groupby(GROUP_COLS)` followed by per-group `shift(1)` on the
  `(GROUP_COLS, Start, Stop)`-sorted frame is embedded per group: rows of a
  group are the `filter` by key, sorted stably by `(Start, Stop)` (a stable
  sort of the whole frame followed by taking one group's rows equals sorting
  that group's rows alone), and the shifted comparison becomes a sequential
  scan carrying the previous row, exactly as the spec's design notes describe.
* `groupby(... + ["run_id"]).agg` groups rows by run id; on the sorted,
  classified group the blocks of equal run id are adjacent, so the grouping is
  embedded as adjacent chunking, and the `min/max/sum/first` reducers are
  embedded with pandas' skip-NaN semantics.
-/

/-- A numeric cell after `to_numeric(..., errors="coerce")`: `none` is NaN. -/
abbrev Cell := Option Int

/-- Pandas elementwise `eq`: false when either side is NaN. -/
def cellEq : Cell → Cell → Bool
  | some x, some y => x == y
  | _, _ => false

/-- Pandas elementwise subtraction: NaN-propagating. -/
def cellSub : Cell → Cell → Cell
  | some x, some y => some (x - y)
  | _, _ => none

/-- Sort-key order on cells: NaN (`none`) sorts last, as in `sort_values`. -/
def cellLt : Cell → Cell → Bool
  | some x, some y => x < y
  | some _, none => true
  | none, _ => false

/-- The seven `GROUP_COLS` of the scripts, as one composite key. -/
structure Key where
  recording : String
  participant : String
  position : String
  toi : String
  interval : String
  eventType : String
  validity : String
deriving DecidableEq, Repr

/-- One input row (`IntervalRow`): the columns the algorithm reads. -/
structure Row where
  key : Key
  start : Cell
  stop : Cell
  duration : Cell
  aoi : String
  eventIndex : Int
deriving DecidableEq, Repr

/-- `DURATION_TARGET = 20` in both scripts. -/
def DURATION_TARGET : Int := 20

/-- `df["Duration"].le(DURATION_TARGET)`: NaN yields false. -/
def durLe (r : Row) : Bool :=
  match r.duration with
  | some d => d ≤ DURATION_TARGET
  | none => false

/-- `df["Duration"].gt(DURATION_TARGET)`: NaN yields false. -/
def durGt (r : Row) : Bool :=
  match r.duration with
  | some d => DURATION_TARGET < d
  | none => false

/-- `df["Duration"] == DURATION_TARGET`: NaN yields false. -/
def durEq20 (r : Row) : Bool :=
  match r.duration with
  | some d => d == DURATION_TARGET
  | none => false

/-- `df["Duration"] != DURATION_TARGET`: NaN yields true. -/
def durNe20 (r : Row) : Bool :=
  match r.duration with
  | some d => d != DURATION_TARGET
  | none => true

/-- Mergeable stream of the at-most variant: `df[df["Duration"].le(20)]`. -/
def le20Rows (df : List Row) : List Row := df.filter durLe

/-- Pass-through stream of the at-most variant: `df[df["Duration"].gt(20)]`. -/
def gt20Rows (df : List Row) : List Row := df.filter durGt

/-- Mergeable stream of the exact variant: `df[df["Duration"] == 20]`. -/
def rows20 (df : List Row) : List Row := df.filter durEq20

/-- Pass-through stream of the exact variant: `df[df["Duration"] != 20]`. -/
def rowsNon20 (df : List Row) : List Row := df.filter durNe20

/-- The `["Start", "Stop"]` part of the sort key, NaN last per column. -/
def timeLt (a b : Row) : Bool :=
  cellLt a.start b.start || (a.start == b.start && cellLt a.stop b.stop)

/-- Stable insertion of a row into a `(Start, Stop)`-sorted list: ties keep
the incoming row after the rows already present. -/
def insertSorted (x : Row) : List Row → List Row
  | [] => [x]
  | y :: ys => if timeLt x y then x :: y :: ys else y :: insertSorted x ys

/-- Stable sort by `(Start, Stop)`, embedding `sort_values` restricted to one
group of the `(GROUP_COLS, Start, Stop)` sort. -/
def sortRows (l : List Row) : List Row :=
  l.foldl (fun acc x => insertSorted x acc) []

/-- The rows of one `groupby(GROUP_COLS)` group. -/
def groupRows (df : List Row) (k : Key) : List Row :=
  df.filter (fun r => r.key == k)

/-- One group of the mergeable stream in frame order after
`sort_values(GROUP_COLS + ["Start", "Stop"])`. -/
def groupSorted (df : List Row) (k : Key) : List Row :=
  sortRows (groupRows df k)

/-- `new_run` of the at-most variant: the previous row is the within-group
`shift(1)` (none at a group head, where every pandas comparison is false).
Continuity is `Start == prev Stop`, or the step-20 fallback gated on both
rows having `Duration == 20`. -/
def newRunLe20 : Option Row → Row → Bool
  | none, _ => true
  | some p, c =>
    !((c.aoi == p.aoi) &&
      (cellEq c.start p.stop ||
        (cellEq (cellSub c.start p.start) (some DURATION_TARGET) &&
         cellEq c.duration (some DURATION_TARGET) &&
         cellEq p.duration (some DURATION_TARGET))))

/-- `new_run` of the exact variant (`compute_new_run`): continuity is
`Start == prev Stop`, or the ungated step-20 fallback. -/
def newRun20 : Option Row → Row → Bool
  | none, _ => true
  | some p, c =>
    !(c.aoi == p.aoi &&
      (cellEq c.start p.stop ||
        cellEq (cellSub c.start p.start) (some DURATION_TARGET)))

/-- A mergeable row together with its `new_run` flag and its `run_id`
(the within-group cumulative sum of `new_run`). -/
structure Classified where
  row : Row
  newRun : Bool
  runId : Nat
deriving DecidableEq, Repr

/-- Sequential scan computing `new_run` and the cumulative `run_id`, carrying
the previous row of the group and the running count. -/
def classifyAux (f : Option Row → Row → Bool) :
    Option Row → Nat → List Row → List Classified
  | _, _, [] => []
  | prev, rid, r :: rs =>
    let nr := f prev r
    let rid' := rid + (if nr then 1 else 0)
    ⟨r, nr, rid'⟩ :: classifyAux f (some r) rid' rs

/-- Classification of one sorted group: no predecessor, count starts at 0. -/
def classifyGroup (f : Option Row → Row → Bool) (g : List Row) :
    List Classified :=
  classifyAux f none 0 g

/-- Adjacent chunking by `run_id`: on a sorted, classified group this is
exactly `groupby(GROUP_COLS + ["run_id"])`, since equal run ids are adjacent.
Each chunk is returned as (first member, later members). -/
def chunkRuns : List Classified → List (Classified × List Classified)
  | [] => []
  | c :: cs =>
    match chunkRuns cs with
    | [] => [(c, [])]
    | (d, ds) :: rest =>
      if c.runId == d.runId then (c, d :: ds) :: rest
      else (c, []) :: (d, ds) :: rest

/-- Pandas `min` reducer: skips NaN; NaN iff no numeric value is present. -/
def foldMin : List Cell → Cell
  | [] => none
  | none :: xs => foldMin xs
  | some x :: xs =>
    match foldMin xs with
    | none => some x
    | some y => some (min x y)

/-- Pandas `max` reducer: skips NaN; NaN iff no numeric value is present. -/
def foldMax : List Cell → Cell
  | [] => none
  | none :: xs => foldMax xs
  | some x :: xs =>
    match foldMax xs with
    | none => some x
    | some y => some (max x y)

/-- Pandas `sum` reducer: skips NaN, 0 on an all-NaN list. -/
def sumCells : List Cell → Int
  | [] => 0
  | none :: xs => sumCells xs
  | some x :: xs => x + sumCells xs

/-- One aggregated run (`MergedRuns` record). -/
structure Run where
  key : Key
  runId : Nat
  start : Cell
  stop : Cell
  duration : Int
  aoi : String
  segmentsMerged : Nat
  eventIndex : Option Int
deriving DecidableEq, Repr

/-- The `.agg` reducers of both scripts applied to one run's member rows
(first member, later members): min Start, max Stop, summed Duration, first
AOI, summed `SegmentsMerged` (each row contributes 1), and first EventIndex
when the column is present. -/
def aggRun (hasEI : Bool) (k : Key) (c : Classified) (cs : List Classified) :
    Run :=
  { key := k
    runId := c.runId
    start := foldMin ((c :: cs).map (fun x => x.row.start))
    stop := foldMax ((c :: cs).map (fun x => x.row.stop))
    duration := sumCells ((c :: cs).map (fun x => x.row.duration))
    aoi := c.row.aoi
    segmentsMerged := (c :: cs).length
    eventIndex := if hasEI then some c.row.eventIndex else none }

/-- All runs of one group: sort, classify, chunk by run id, aggregate. -/
def groupRuns (f : Option Row → Row → Bool) (hasEI : Bool)
    (stream : List Row) (k : Key) : List Run :=
  (chunkRuns (classifyGroup f (groupSorted stream k))).map
    (fun p => aggRun hasEI k p.1 p.2)

/-- Runs of one group, at-most variant (`merge_consecutive_aoi_duration_le20`);
`hasEI` records whether the optional `EventIndex` column exists. -/
def groupRunsLe20 (hasEI : Bool) (df : List Row) (k : Key) : List Run :=
  groupRuns newRunLe20 hasEI (le20Rows df) k

/-- Runs of one group, exact variant (`merge_consecutive_aoi`); its `.agg`
always includes `EventIndex`. -/
def groupRuns20 (df : List Row) (k : Key) : List Run :=
  groupRuns newRun20 true (rows20 df) k

/-- The distinct group keys of a stream, in order of first appearance. -/
def keysOf (rows : List Row) : List Key :=
  rows.foldl (fun ks r => if r.key ∈ ks then ks else ks ++ [r.key]) []

/-- The whole `MergedRuns` table of the at-most variant, group by group. -/
def mergedRunsTableLe20 (hasEI : Bool) (df : List Row) : List Run :=
  ((keysOf (le20Rows df)).map (groupRunsLe20 hasEI df)).flatten

/-- The whole `MergedRuns` table of the exact variant, group by group. -/
def mergedRunsTable20 (df : List Row) : List Run :=
  ((keysOf (rows20 df)).map (groupRuns20 df)).flatten

/-- An input sheet: its rows plus whether the `EventIndex` column exists. -/
structure Table where
  hasEventIndex : Bool
  rows : List Row
deriving Repr

/-- The at-most variant's merge on a sheet: total, because its `.agg`
dictionary only mentions `EventIndex` after checking the column exists. -/
def mergeRunsLe20 (t : Table) : List Run :=
  mergedRunsTableLe20 t.hasEventIndex t.rows

/-- The exact variant's merge on a sheet: its `.agg` references the
`EventIndex` column unconditionally, so a sheet without that column raises a
`KeyError`; the failure is modelled as `none`. -/
def mergeRuns20? (t : Table) : Option (List Run) :=
  if t.hasEventIndex then some (mergedRunsTable20 t.rows) else none

/-- One pass-through row as placed in `Timeline_Combined`. -/
structure TaggedRow where
  row : Row
  sourceTag : String
  originalRowIndex : Nat
deriving DecidableEq, Repr

/-- The at-most variant's tagged pass-through rows:
`gt20_out["Source"] = "Raw>20msRow"; gt20_out["OriginalRowIndex"] = gt20_out.index`.
`gt20_rows` is filtered from `df` without `reset_index`, so its index labels
are the row positions in the original input frame (`read_excel` gives a
0-based range index), which `enum`-before-filter reproduces. -/
def passThroughTagged (df : List Row) : List TaggedRow :=
  (df.enum.filter (fun p => durGt p.2)).map
    (fun p => ⟨p.2, "Raw>20msRow", p.1⟩)

/-- A run written back as an input row, to feed `MergedRuns` through the
merge again (re-aggregation). -/
def runToRow (r : Run) : Row :=
  { key := r.key
    start := r.start
    stop := r.stop
    duration := some r.duration
    aoi := r.aoi
    eventIndex := r.eventIndex.getD 0 }

/-- The identity-relevant attributes of a run: everything except the
bookkeeping fields `segmentsMerged` and `eventIndex` and the positional
`runId`. -/
def runSig (r : Run) : Key × Cell × Cell × Int × String :=
  (r.key, r.start, r.stop, r.duration, r.aoi)

/-- Drop the `EventIndex` output column from a run record. -/
def eraseEventIndex (r : Run) : Run :=
  { r with eventIndex := none }

/-- A concrete group key for witnesses and counterexamples. -/
def exKey : Key :=
  ⟨ "Rec1", "P01", "Goalie", "TOI1", "Int1", "Fixation", "Whole" ⟩

/-- Row builder over `exKey` for witnesses and counterexamples. -/
def mkRow (s e d : Cell) (a : String) : Row :=
  ⟨exKey, s, e, d, a, 0⟩

/-- A row whose Duration failed numeric coercion (NaN). -/
def nanRow : Row := mkRow (some 0) (some 10) none "A"

/-! ### Structural lemmas about the classifier and the chunking -/

theorem classifyAux_map_row (f : Option Row → Row → Bool) :
    ∀ (l : List Row) (prev : Option Row) (rid : Nat),
      (classifyAux f prev rid l).map (fun c => c.row) = l := by
  intro l
  induction l with
  | nil => intro prev rid; rfl
  | cons r rs ih => intro prev rid; simp [classifyAux, ih]

theorem classifyAux_length (f : Option Row → Row → Bool) (l : List Row)
    (prev : Option Row) (rid : Nat) :
    (classifyAux f prev rid l).length = l.length := by
  have h := congrArg List.length (classifyAux_map_row f l prev rid)
  simpa using h

theorem chunkRuns_cons_cons (c : Classified) (cs : List Classified)
    (d : Classified) (ds : List Classified)
    (rest : List (Classified × List Classified))
    (h : chunkRuns cs = (d, ds) :: rest) :
    chunkRuns (c :: cs) =
      if (c.runId == d.runId) = true then (c, d :: ds) :: rest
      else (c, []) :: (d, ds) :: rest := by
  rw [chunkRuns, h]

theorem chunkRuns_nil_of (c : Classified) (cs : List Classified)
    (h : chunkRuns cs = []) :
    chunkRuns (c :: cs) = [(c, [])] := by
  rw [chunkRuns, h]

theorem chunkRuns_flatten :
    ∀ l : List Classified,
      ((chunkRuns l).map (fun p => p.1 :: p.2)).flatten = l := by
  intro l
  induction l with
  | nil => rfl
  | cons c cs ih =>
    cases h : chunkRuns cs with
    | nil =>
      have hcs : cs = [] := by
        have := ih
        rw [h] at this
        simpa using this.symm
      subst hcs
      rfl
    | cons hd rest =>
      obtain ⟨d, ds⟩ := hd
      rw [h] at ih
      by_cases e : (c.runId == d.runId) = true
      · rw [chunkRuns_cons_cons c cs d ds rest h, if_pos e]
        simpa using ih
      · rw [chunkRuns_cons_cons c cs d ds rest h, if_neg e]
        simpa using ih

theorem chunkRuns_tail_runId :
    ∀ (l : List Classified) (p : Classified × List Classified),
      p ∈ chunkRuns l → ∀ x ∈ p.2, x.runId = p.1.runId := by
  intro l
  induction l with
  | nil =>
    intro p hp
    rw [show chunkRuns [] = [] from rfl] at hp
    cases hp
  | cons c cs ih =>
    intro p hp x hx
    cases h : chunkRuns cs with
    | nil =>
      rw [chunkRuns_nil_of c cs h] at hp
      simp at hp
      subst hp
      simp at hx
    | cons hd rest =>
      obtain ⟨d, ds⟩ := hd
      rw [chunkRuns_cons_cons c cs d ds rest h] at hp
      by_cases e : (c.runId == d.runId) = true
      · rw [if_pos e] at hp
        rcases List.mem_cons.mp hp with h1 | h2
        · subst h1
          simp only at hx ⊢
          rcases List.mem_cons.mp hx with rfl | h3
          · exact (beq_iff_eq.mp e).symm
          · have := ih (d, ds) (by rw [h]; exact List.mem_cons_self _ _) x h3
            simp only at this
            rw [this]
            exact (beq_iff_eq.mp e).symm
        · exact ih p (by rw [h]; exact List.mem_cons_of_mem _ h2) x hx
      · rw [if_neg e] at hp
        rcases List.mem_cons.mp hp with h1 | h2
        · subst h1; simp at hx
        · exact ih p (by rw [h]; exact h2) x hx

theorem classifyAux_runId_chain (f : Option Row → Row → Bool) :
    ∀ (l : List Row) (prev : Option Row) (rid : Nat),
      List.Chain' (fun a b => a.runId ≤ b.runId) (classifyAux f prev rid l) := by
  intro l
  induction l with
  | nil => intro prev rid; simp [classifyAux]
  | cons r rs ih =>
    intro prev rid
    rw [classifyAux]
    rw [List.chain'_cons']
    refine ⟨?_, ih (some r) _⟩
    intro b hb
    cases rs with
    | nil => simp [classifyAux] at hb
    | cons s ss =>
      rw [classifyAux] at hb
      simp only [List.head?_cons, Option.mem_def, Option.some.injEq] at hb
      subst hb
      simp only
      omega

/-! ### Lemmas about the stable insertion sort -/

theorem insertSorted_length (x : Row) :
    ∀ l : List Row, (insertSorted x l).length = l.length + 1 := by
  intro l
  induction l with
  | nil => rfl
  | cons y ys ih =>
    rw [insertSorted]
    by_cases h : timeLt x y = true
    · simp [h]
    · simp only [h]
      simp [ih]

theorem sortRows_length (l : List Row) : (sortRows l).length = l.length := by
  suffices h : ∀ (l acc : List Row),
      (l.foldl (fun acc x => insertSorted x acc) acc).length
        = acc.length + l.length by
    simpa using h l []
  intro l
  induction l with
  | nil => intro acc; simp
  | cons y ys ih =>
    intro acc
    simp only [List.foldl_cons]
    rw [ih]
    rw [insertSorted_length]
    simp [List.length_cons]
    omega

theorem mem_insertSorted (x a : Row) :
    ∀ l : List Row, a ∈ insertSorted x l ↔ a = x ∨ a ∈ l := by
  intro l
  induction l with
  | nil => simp [insertSorted]
  | cons y ys ih =>
    rw [insertSorted]
    by_cases h : timeLt x y = true
    · simp only [if_pos h]
      simp
    · simp only [if_neg h]
      simp [ih]
      tauto

theorem mem_sortRows (a : Row) (l : List Row) :
    a ∈ sortRows l ↔ a ∈ l := by
  suffices h : ∀ (l acc : List Row),
      a ∈ l.foldl (fun acc x => insertSorted x acc) acc ↔ a ∈ acc ∨ a ∈ l by
    simpa using h l []
  intro l
  induction l with
  | nil => intro acc; simp
  | cons y ys ih =>
    intro acc
    simp only [List.foldl_cons]
    rw [ih, mem_insertSorted]
    simp
    tauto

/-! ### C1 — partition totality and NaN routing -/

/-- C1: the claim asserts that a NaN-duration row always lands in the
pass-through set in both comparison modes.  In the exact mode it does
(`!=` is true for NaN), but in the at-most mode the mergeable stream is
`Duration <= 20` and the pass-through stream is `Duration > 20`, and NaN
fails both, so the row lands in neither set: the two sets are no longer a
partition of the input, contradicting the claim (and the spec's §4.2/§7/§8
totality and routing requirements, which the exact variant and the spec
clearly intend).  This theorem evaluates the code at the failing input. -/
theorem partitioner_drops_nan_row :
    le20Rows [nanRow] = [] ∧ gt20Rows [nanRow] = [] ∧
    rows20 [nanRow] = [] ∧ rowsNon20 [nanRow] = [nanRow] :=
  ⟨ rfl, rfl, rfl, rfl ⟩

/-! ### C3 — which variant gates the step-20 fallback -/

/-- Previous row for the C3 counterexample. -/
def exPrevC3 : Row := mkRow (some 0) (some 5) (some 20) "A"

/-- Current row for the C3 counterexample. -/
def exCurC3 : Row := mkRow (some 20) (some 25) (some 20) "A"

/-- C3 counterexample: the claim says that in the at-most mode the step-20
fallback is disabled, so a mergeable row continues the previous run only
when its Start equals the previous Stop.  In the code the fallback is
present (gated on both Durations equalling 20): here the current row
continues the run (`new_run = false`) although its Start (20) differs from
the previous Stop (5). -/
theorem atMost_fallback_not_disabled :
    newRunLe20 (some exPrevC3) exCurC3 = false ∧
    cellEq exCurC3.start exPrevC3.stop = false :=
  ⟨ rfl, rfl ⟩

theorem newRunLe20_false_iff (p c : Row) :
    newRunLe20 (some p) c = false ↔
      c.aoi = p.aoi ∧ (cellEq c.start p.stop = true ∨
        (cellEq (cellSub c.start p.start) (some DURATION_TARGET) = true ∧
         cellEq c.duration (some DURATION_TARGET) = true ∧
         cellEq p.duration (some DURATION_TARGET) = true)) := by
  rw [newRunLe20]
  cases h0 : (c.aoi == p.aoi) <;>
    cases h2 : cellEq c.start p.stop <;>
    cases h3 : cellEq (cellSub c.start p.start) (some DURATION_TARGET) <;>
    cases h4 : cellEq c.duration (some DURATION_TARGET) <;>
    cases h5 : cellEq p.duration (some DURATION_TARGET) <;>
    simp_all [beq_iff_eq, beq_eq_false_iff_ne, ne_eq]

theorem newRun20_false_iff (p c : Row) :
    newRun20 (some p) c = false ↔
      c.aoi = p.aoi ∧ (cellEq c.start p.stop = true ∨
        cellEq (cellSub c.start p.start) (some DURATION_TARGET) = true) := by
  rw [newRun20]
  cases h0 : (c.aoi == p.aoi) <;>
    cases h2 : cellEq c.start p.stop <;>
    cases h3 : cellEq (cellSub c.start p.start) (some DURATION_TARGET) <;>
    simp_all [beq_iff_eq, beq_eq_false_iff_ne, ne_eq]

theorem newRunLe20_true_iff (p c : Row) :
    newRunLe20 (some p) c = true ↔
      ¬ (c.aoi = p.aoi ∧ (cellEq c.start p.stop = true ∨
        (cellEq (cellSub c.start p.start) (some DURATION_TARGET) = true ∧
         cellEq c.duration (some DURATION_TARGET) = true ∧
         cellEq p.duration (some DURATION_TARGET) = true))) := by
  rw [← newRunLe20_false_iff]
  cases newRunLe20 (some p) c <;> simp

theorem newRunLe20_none (r : Row) : newRunLe20 none r = true := rfl

theorem newRun20_none (r : Row) : newRun20 none r = true := rfl

/-- C3 amended: in the at-most mode the step-20 fallback applies exactly
when both adjacent rows have Duration == 20; in the exact mode the fallback
applies unconditionally.  (The claim had the two variants swapped.) -/
theorem fallback_rule_characterization : ∀ (p c : Row),
    (newRunLe20 (some p) c = false ↔
      c.aoi = p.aoi ∧ (cellEq c.start p.stop = true ∨
        (cellEq (cellSub c.start p.start) (some DURATION_TARGET) = true ∧
         cellEq c.duration (some DURATION_TARGET) = true ∧
         cellEq p.duration (some DURATION_TARGET) = true))) ∧
    (newRun20 (some p) c = false ↔
      c.aoi = p.aoi ∧ (cellEq c.start p.stop = true ∨
        cellEq (cellSub c.start p.start) (some DURATION_TARGET) = true)) :=
  fun p c => ⟨newRunLe20_false_iff p c, newRun20_false_iff p c⟩

/-! ### C8 — behavior when the EventIndex column is missing -/

/-- C8 counterexample: the exact variant's `.agg` names the `EventIndex`
column unconditionally, so on a sheet without that column the merge raises
(`none` in the model) instead of degrading gracefully. -/
theorem exact_variant_requires_eventIndex :
    mergeRuns20? ⟨false, [mkRow (some 0) (some 20) (some 20) "A"]⟩ = none :=
  rfl

theorem groupRuns_eventIndex_erase (f : Option Row → Row → Bool)
    (s : List Row) (k : Key) :
    groupRuns f false s k = (groupRuns f true s k).map eraseEventIndex := by
  simp only [groupRuns, List.map_map]
  rfl

/-- C8 amended: the at-most variant's merge is total on sheets without the
optional `EventIndex` column and produces the same runs as with the column,
with the `EventIndex` output attribute omitted; the exact-mode branch
variant instead fails on such a sheet (see
`exact_variant_requires_eventIndex`). -/
theorem atMost_merge_degrades_gracefully : ∀ (rows : List Row),
    mergeRunsLe20 ⟨false, rows⟩
      = (mergeRunsLe20 ⟨true, rows⟩).map eraseEventIndex := by
  intro rows
  simp only [mergeRunsLe20, mergedRunsTableLe20, groupRunsLe20]
  rw [List.map_flatten, List.map_map]
  congr 1
  apply List.map_congr_left
  intro k _
  exact groupRuns_eventIndex_erase newRunLe20 (le20Rows rows) k

/-! ### C9 — provenance tag and OriginalRowIndex of pass-through rows -/

/-- Two-row input for the C9 counterexample: a mergeable row followed by a
pass-through row. -/
def exDf9 : List Row :=
  [mkRow (some 0) (some 10) (some 10) "A", mkRow (some 10) (some 40) (some 30) "B"]

/-- C9 counterexample: the single pass-through row of `exDf9` (ordinal 0 in
the pass-through set) carries `OriginalRowIndex = 1`, its position in the
original input frame, because `gt20_rows` keeps the original index labels
(no `reset_index` before `gt20_out.index` is read). -/
theorem passThrough_index_not_ordinal :
    (passThroughTagged exDf9).map (fun t => t.originalRowIndex) = [1] ∧
    (passThroughTagged exDf9).length = 1 :=
  ⟨ rfl, rfl ⟩

/-- C9 amended: every pass-through row in the combined timeline is tagged
with the raw provenance value, and its `OriginalRowIndex` is its position in
the original input table (not its ordinal among pass-through rows). -/
theorem passThrough_tag_and_index : ∀ (df : List Row) (t : TaggedRow),
    t ∈ passThroughTagged df →
      t.sourceTag = "Raw>20msRow" ∧ df[t.originalRowIndex]? = some t.row ∧
        durGt t.row = true := by
  intro df t ht
  rw [passThroughTagged] at ht
  obtain ⟨⟨i, r⟩, hmem, rfl⟩ := List.mem_map.mp ht
  have h2 := List.mem_filter.mp hmem
  refine ⟨rfl, ?_, h2.2⟩
  exact List.mk_mem_enum_iff_getElem?.mp h2.1

/-- Witness for the C9 amended theorem at a concrete input. -/
theorem passThrough_tag_and_index_witness :
    ((⟨mkRow (some 10) (some 40) (some 30) "B", "Raw>20msRow", 1⟩ : TaggedRow)
        ∈ passThroughTagged exDf9) ∧
    (("Raw>20msRow" : String) = "Raw>20msRow" ∧
      exDf9[(1 : Nat)]? = some (mkRow (some 10) (some 40) (some 30) "B") ∧
      durGt (mkRow (some 10) (some 40) (some 30) "B") = true) :=
  ⟨ by decide,
    passThrough_tag_and_index exDf9
      ⟨mkRow (some 10) (some 40) (some 30) "B", "Raw>20msRow", 1⟩ (by decide) ⟩

/-! ### C2 — new-run flags and run-id assignment -/

theorem classifyAux_get_zero (f : Option Row → Row → Bool) (l : List Row)
    (prev : Option Row) (rid : Nat)
    (h : 0 < (classifyAux f prev rid l).length) :
    ((classifyAux f prev rid l).get ⟨0, h⟩).newRun
        = f prev ((classifyAux f prev rid l).get ⟨0, h⟩).row ∧
    ((classifyAux f prev rid l).get ⟨0, h⟩).runId
        = rid + (if f prev ((classifyAux f prev rid l).get ⟨0, h⟩).row
                 then 1 else 0) := by
  cases l with
  | nil => simp [classifyAux] at h
  | cons r rs => exact ⟨rfl, rfl⟩

theorem classifyAux_get_succ (f : Option Row → Row → Bool) :
    ∀ (l : List Row) (prev : Option Row) (rid : Nat) (i : Nat)
      (h : i + 1 < (classifyAux f prev rid l).length),
      ((classifyAux f prev rid l).get ⟨i + 1, h⟩).newRun
        = f (some (((classifyAux f prev rid l).get
              ⟨i, Nat.lt_of_succ_lt h⟩)).row)
            (((classifyAux f prev rid l).get ⟨i + 1, h⟩).row) := by
  intro l
  induction l with
  | nil => intro prev rid i h; simp [classifyAux] at h
  | cons r rs ih =>
    intro prev rid i h
    cases i with
    | zero =>
      cases rs with
      | nil => simp [classifyAux] at h
      | cons s ss => exact rfl
    | succ j =>
      have h' : j + 1 < (classifyAux f (some r)
          (rid + (if f prev r then 1 else 0)) rs).length := by
        have := h
        simp [classifyAux] at this
        simpa [classifyAux] using this
      have := ih (some r) (rid + (if f prev r then 1 else 0)) j h'
      simpa [classifyAux, List.get_eq_getElem, List.getElem_cons_succ] using this

theorem classifyAux_runId_count (f : Option Row → Row → Bool) :
    ∀ (l : List Row) (prev : Option Row) (rid : Nat) (i : Nat)
      (h : i < (classifyAux f prev rid l).length),
      ((classifyAux f prev rid l).get ⟨i, h⟩).runId
        = rid + ((classifyAux f prev rid l).take (i + 1)).countP
            (fun c => c.newRun) := by
  intro l
  induction l with
  | nil => intro prev rid i h; simp [classifyAux] at h
  | cons r rs ih =>
    intro prev rid i h
    cases i with
    | zero =>
      simp [classifyAux, List.countP_cons]
    | succ j =>
      have h' : j < (classifyAux f (some r)
          (rid + (if f prev r then 1 else 0)) rs).length := by
        have := h
        simpa [classifyAux] using this
      have hj := ih (some r) (rid + (if f prev r then 1 else 0)) j h'
      have hget : ((classifyAux f prev rid (r :: rs)).get ⟨j + 1, h⟩)
          = ((classifyAux f (some r) (rid + (if f prev r then 1 else 0)) rs).get
              ⟨j, h'⟩) := by
        simp [classifyAux, List.get_eq_getElem, List.getElem_cons_succ]
      rw [hget, hj]
      have htake : (classifyAux f prev rid (r :: rs)).take (j + 2)
          = ⟨r, f prev r, rid + (if f prev r then 1 else 0)⟩ ::
            (classifyAux f (some r) (rid + (if f prev r then 1 else 0)) rs).take
              (j + 1) := rfl
      rw [htake, List.countP_cons]
      simp only
      cases hf : f prev r <;> simp [hf] <;> omega

/-- Two contiguous same-AOI rows, used as the C2 witness group. -/
def exDf2 : List Row :=
  [mkRow (some 0) (some 20) (some 20) "Puck",
   mkRow (some 20) (some 40) (some 20) "Puck"]

/-- C2: for every group of the sorted mergeable stream, the first row in
sort order starts a new run with run id 1; every later row starts a new run
iff NOT (its AOI equals the immediately preceding row's AOI AND the
contiguity predicate holds against that preceding row); and run ids are the
running count of new-run flags within the group. -/
theorem classifier_new_run_and_run_ids (df : List Row) (k : Key)
    (cl : List Classified)
    (hcl : cl = classifyGroup newRunLe20 (groupSorted (le20Rows df) k)) :
    (∀ h : 0 < cl.length,
      (cl.get ⟨0, h⟩).newRun = true ∧ (cl.get ⟨0, h⟩).runId = 1) ∧
    (∀ (i : Nat) (h : i + 1 < cl.length),
      ((cl.get ⟨i + 1, h⟩).newRun = true ↔
        ¬ ((cl.get ⟨i + 1, h⟩).row.aoi
              = (cl.get ⟨i, Nat.lt_of_succ_lt h⟩).row.aoi ∧
           (cellEq (cl.get ⟨i + 1, h⟩).row.start
                (cl.get ⟨i, Nat.lt_of_succ_lt h⟩).row.stop = true ∨
            (cellEq (cellSub (cl.get ⟨i + 1, h⟩).row.start
                  (cl.get ⟨i, Nat.lt_of_succ_lt h⟩).row.start)
                (some DURATION_TARGET) = true ∧
             cellEq (cl.get ⟨i + 1, h⟩).row.duration
                (some DURATION_TARGET) = true ∧
             cellEq (cl.get ⟨i, Nat.lt_of_succ_lt h⟩).row.duration
                (some DURATION_TARGET) = true))))) ∧
    (∀ (i : Nat) (h : i < cl.length),
      (cl.get ⟨i, h⟩).runId
        = (cl.take (i + 1)).countP (fun c => c.newRun)) := by
  subst hcl
  simp only [classifyGroup]
  refine ⟨?_, ?_, ?_⟩
  · intro h
    have h0 := classifyAux_get_zero newRunLe20 (groupSorted (le20Rows df) k)
      none 0 h
    refine ⟨?_, ?_⟩
    · rw [h0.1, newRunLe20_none]
    · rw [h0.2, newRunLe20_none]
      simp
  · intro i h
    have hs := classifyAux_get_succ newRunLe20 (groupSorted (le20Rows df) k)
      none 0 i h
    rw [hs]
    exact newRunLe20_true_iff _ _
  · intro i h
    have hc := classifyAux_runId_count newRunLe20
      (groupSorted (le20Rows df) k) none 0 i h
    simpa using hc

/-- Witness for the C2 theorem on the concrete group `exDf2`: the first row
opens run 1, the second row does not start a new run (it is contiguous with
the same AOI), and run ids equal the running new-run count. -/
theorem classifier_new_run_and_run_ids_witness :
    (((classifyGroup newRunLe20 (groupSorted (le20Rows exDf2) exKey)).get
        ⟨0, by decide⟩).newRun = true ∧
     ((classifyGroup newRunLe20 (groupSorted (le20Rows exDf2) exKey)).get
        ⟨0, by decide⟩).runId = 1) ∧
    (((classifyGroup newRunLe20 (groupSorted (le20Rows exDf2) exKey)).get
        ⟨1, by decide⟩).runId
      = ((classifyGroup newRunLe20
            (groupSorted (le20Rows exDf2) exKey)).take 2).countP
          (fun c => c.newRun)) :=
  ⟨ (classifier_new_run_and_run_ids exDf2 exKey _ rfl).1 (by decide),
    (classifier_new_run_and_run_ids exDf2 exKey _ rfl).2.2 1 (by decide) ⟩

/-! ### C4/C5 — run aggregation attributes and conservation -/

theorem chunkRuns_heads_lt :
    ∀ l : List Classified,
      List.Chain' (fun a b => a.runId ≤ b.runId) l →
      List.Pairwise
        (fun p q : Classified × List Classified => p.1.runId < q.1.runId)
        (chunkRuns l) := by
  intro l
  induction l with
  | nil => intro _; exact List.Pairwise.nil
  | cons c cs ih =>
    intro hch
    have hcs : List.Chain' (fun a b => a.runId ≤ b.runId) cs := hch.tail
    cases h : chunkRuns cs with
    | nil =>
      rw [chunkRuns_nil_of c cs h]
      exact List.pairwise_singleton _ _
    | cons hd rest =>
      obtain ⟨d, ds⟩ := hd
      have hflat := chunkRuns_flatten cs
      rw [h] at hflat
      have hcs_eq : cs = d :: (ds ++ ((rest).map
          (fun p => p.1 :: p.2)).flatten) := by
        simpa using hflat.symm
      have hcd : c.runId ≤ d.runId := by
        rw [hcs_eq] at hch
        exact (List.chain'_cons.mp hch).1
      have hih := ih hcs
      rw [h] at hih
      have hdtl := (List.pairwise_cons.mp hih).1
      have hrest := (List.pairwise_cons.mp hih).2
      by_cases e : (c.runId == d.runId) = true
      · rw [chunkRuns_cons_cons c cs d ds rest h, if_pos e]
        refine List.pairwise_cons.mpr ⟨?_, hrest⟩
        intro q hq
        have hq' := hdtl q hq
        have hce : c.runId = d.runId := beq_iff_eq.mp e
        show c.runId < q.1.runId
        simp only at hq'
        omega
      · rw [chunkRuns_cons_cons c cs d ds rest h, if_neg e]
        have hne : c.runId ≠ d.runId := by
          intro hx
          exact e (beq_iff_eq.mpr hx)
        refine List.pairwise_cons.mpr ⟨?_, hih⟩
        intro q hq
        rcases List.mem_cons.mp hq with rfl | hq'
        · show c.runId < d.runId
          omega
        · have hdq := hdtl q hq'
          show c.runId < q.1.runId
          simp only at hdq
          omega

theorem filter_flatten_blocks :
    ∀ bs : List (Classified × List Classified),
      (∀ p ∈ bs, ∀ x ∈ p.2, x.runId = p.1.runId) →
      List.Pairwise
        (fun p q : Classified × List Classified => p.1.runId < q.1.runId) bs →
      ∀ p ∈ bs,
        ((bs.map (fun q => q.1 :: q.2)).flatten).filter
            (fun c => c.runId == p.1.runId) = p.1 :: p.2 := by
  intro bs
  induction bs with
  | nil => intro _ _ p hp; cases hp
  | cons b bs' ih =>
    intro hall hpw p hp
    have hbth := (List.pairwise_cons.mp hpw).1
    have hbpw := (List.pairwise_cons.mp hpw).2
    simp only [List.map_cons, List.flatten_cons, List.filter_append]
    rcases List.mem_cons.mp hp with heq | hp'
    · subst heq
      have h1 : (p.1 :: p.2).filter (fun c => c.runId == p.1.runId)
          = p.1 :: p.2 := by
        apply List.filter_eq_self.mpr
        intro x hx
        rcases List.mem_cons.mp hx with rfl | hx'
        · exact beq_iff_eq.mpr rfl
        · exact beq_iff_eq.mpr (hall p (List.mem_cons_self _ _) x hx')
      have h2 : ((bs'.map (fun q => q.1 :: q.2)).flatten).filter
          (fun c => c.runId == p.1.runId) = [] := by
        apply List.filter_eq_nil_iff.mpr
        intro x hx
        obtain ⟨lx, hlx, hxin⟩ := List.mem_flatten.mp hx
        obtain ⟨q, hq, rfl⟩ := List.mem_map.mp hlx
        have hxq : x.runId = q.1.runId := by
          rcases List.mem_cons.mp hxin with rfl | hxin'
          · rfl
          · exact hall q (List.mem_cons_of_mem _ hq) x hxin'
        have hlt := hbth q hq
        intro hbeq
        have := beq_iff_eq.mp hbeq
        omega
      rw [h1, h2, List.append_nil]
    · have h1 : (b.1 :: b.2).filter (fun c => c.runId == p.1.runId) = [] := by
        apply List.filter_eq_nil_iff.mpr
        intro x hx
        have hxb : x.runId = b.1.runId := by
          rcases List.mem_cons.mp hx with rfl | hx'
          · rfl
          · exact hall b (List.mem_cons_self _ _) x hx'
        have hlt := hbth p hp'
        intro hbeq
        have := beq_iff_eq.mp hbeq
        omega
      rw [h1, List.nil_append]
      exact ih (fun q hq => hall q (List.mem_cons_of_mem _ hq)) hbpw p hp'

theorem chunkRuns_block_filter (l : List Classified)
    (hch : List.Chain' (fun a b => a.runId ≤ b.runId) l) :
    ∀ p ∈ chunkRuns l,
      l.filter (fun c => c.runId == p.1.runId) = p.1 :: p.2 := by
  intro p hp
  have h := filter_flatten_blocks (chunkRuns l)
    (fun q hq => chunkRuns_tail_runId l q hq)
    (chunkRuns_heads_lt l hch) p hp
  rw [chunkRuns_flatten] at h
  exact h

/-- C5: SegmentsMerged conservation — for every group, the sum of
`SegmentsMerged` over its runs equals the number of mergeable rows of that
group. -/
theorem segmentsMerged_conservation : ∀ (hasEI : Bool) (df : List Row) (k : Key),
    ((groupRunsLe20 hasEI df k).map (fun R => R.segmentsMerged)).sum
      = (groupRows (le20Rows df) k).length := by
  intro hasEI df k
  simp only [groupRunsLe20, groupRuns, List.map_map]
  have hflat := congrArg List.length
    (chunkRuns_flatten (classifyGroup newRunLe20 (groupSorted (le20Rows df) k)))
  rw [List.length_flatten, List.map_map] at hflat
  have hcl : (classifyGroup newRunLe20 (groupSorted (le20Rows df) k)).length
      = (groupRows (le20Rows df) k).length := by
    rw [classifyGroup, classifyAux_length, groupSorted, sortRows_length]
  rw [← hcl, ← hflat]
  rfl

/-- A run of two merged segments, used as the C4 witness. -/
def exRun4 : Run := ⟨exKey, 1, some 0, some 40, 40, "Puck", 2, none⟩

/-- C4: every run produced by the aggregator satisfies the attribute
formulas over its member rows (the classified rows of its group carrying its
run id): Start is the min member Start, Stop the max member Stop, Duration
the member sum, AOI and EventIndex come from the first member in sort order
(EventIndex only when the column is present), and SegmentsMerged is the
member count. -/
theorem run_aggregation_attributes (hasEI : Bool) (df : List Row) (k : Key)
    (R : Run) (hR : R ∈ groupRunsLe20 hasEI df k)
    (mem : List Classified)
    (hmem : mem = (classifyGroup newRunLe20
        (groupSorted (le20Rows df) k)).filter (fun c => c.runId == R.runId)) :
    mem ≠ [] ∧
    R.start = foldMin (mem.map (fun c => c.row.start)) ∧
    R.stop = foldMax (mem.map (fun c => c.row.stop)) ∧
    R.duration = sumCells (mem.map (fun c => c.row.duration)) ∧
    mem.head?.map (fun c => c.row.aoi) = some R.aoi ∧
    R.segmentsMerged = mem.length ∧
    R.eventIndex
      = (if hasEI then mem.head?.map (fun c => c.row.eventIndex) else none) := by
  subst hmem
  simp only [groupRunsLe20, groupRuns] at hR
  obtain ⟨p, hp, rfl⟩ := List.mem_map.mp hR
  have hch := classifyAux_runId_chain newRunLe20
    (groupSorted (le20Rows df) k) none 0
  have hfil := chunkRuns_block_filter
    (classifyGroup newRunLe20 (groupSorted (le20Rows df) k)) hch p hp
  have hrid : (aggRun hasEI k p.1 p.2).runId = p.1.runId := rfl
  rw [hrid, hfil]
  refine ⟨List.cons_ne_nil _ _, rfl, rfl, rfl, rfl, rfl, ?_⟩
  cases hasEI <;> rfl

/-- Witness for the C4 theorem: the two-row group `exDf2` merges into the
single run `exRun4`, whose attributes match the member formulas. -/
theorem run_aggregation_attributes_witness :
    ((classifyGroup newRunLe20
        (groupSorted (le20Rows exDf2) exKey)).filter
        (fun c => c.runId == exRun4.runId)) ≠ [] ∧
    exRun4.start = foldMin (((classifyGroup newRunLe20
        (groupSorted (le20Rows exDf2) exKey)).filter
        (fun c => c.runId == exRun4.runId)).map (fun c => c.row.start)) ∧
    exRun4.stop = foldMax (((classifyGroup newRunLe20
        (groupSorted (le20Rows exDf2) exKey)).filter
        (fun c => c.runId == exRun4.runId)).map (fun c => c.row.stop)) ∧
    exRun4.duration = sumCells (((classifyGroup newRunLe20
        (groupSorted (le20Rows exDf2) exKey)).filter
        (fun c => c.runId == exRun4.runId)).map (fun c => c.row.duration)) ∧
    (((classifyGroup newRunLe20
        (groupSorted (le20Rows exDf2) exKey)).filter
        (fun c => c.runId == exRun4.runId)).head?.map
        (fun c => c.row.aoi)) = some exRun4.aoi ∧
    exRun4.segmentsMerged = ((classifyGroup newRunLe20
        (groupSorted (le20Rows exDf2) exKey)).filter
        (fun c => c.runId == exRun4.runId)).length ∧
    exRun4.eventIndex
      = (if false then (((classifyGroup newRunLe20
            (groupSorted (le20Rows exDf2) exKey)).filter
            (fun c => c.runId == exRun4.runId)).head?.map
            (fun c => c.row.eventIndex)) else none) :=
  run_aggregation_attributes false exDf2 exKey exRun4 (by decide) _ rfl

/-! ### Order lemmas for the `(Start, Stop)` sort -/

/-- The "not after" relation of the sort: `a` may precede `b`. -/
def rowLe (a b : Row) : Prop := timeLt b a = false

theorem cellLt_irrefl (x : Cell) : cellLt x x = false := by
  cases x <;> simp [cellLt]

theorem cellLt_asymm (a b : Cell) (h : cellLt a b = true) :
    cellLt b a = false := by
  cases a <;> cases b <;> simp [cellLt] at h ⊢ <;> omega

theorem cellLt_neg_trans (a b c : Cell) (h1 : cellLt b a = false)
    (h2 : cellLt c b = false) : cellLt c a = false := by
  cases a <;> cases b <;> cases c <;> simp [cellLt] at h1 h2 ⊢ <;> omega

theorem cellLt_eq_of_neg_both (a b : Cell) (h1 : cellLt a b = false)
    (h2 : cellLt b a = false) : a = b := by
  cases a <;> cases b <;> simp [cellLt] at h1 h2 ⊢ <;> omega

theorem timeLt_iff (a b : Row) :
    timeLt a b = true ↔
      (cellLt a.start b.start = true ∨
        (a.start = b.start ∧ cellLt a.stop b.stop = true)) := by
  rw [timeLt]
  cases h1 : cellLt a.start b.start <;>
    cases h2 : (a.start == b.start) <;>
    cases h3 : cellLt a.stop b.stop <;>
    simp_all [beq_iff_eq, beq_eq_false_iff_ne, ne_eq]

theorem timeLt_eq_false_iff (a b : Row) :
    timeLt a b = false ↔
      (cellLt a.start b.start = false ∧
        (a.start = b.start → cellLt a.stop b.stop = false)) := by
  rw [timeLt]
  cases h1 : cellLt a.start b.start <;>
    cases h2 : (a.start == b.start) <;>
    cases h3 : cellLt a.stop b.stop <;>
    simp_all [beq_iff_eq, beq_eq_false_iff_ne, ne_eq]

theorem timeLt_asymm (a b : Row) (h : timeLt a b = true) :
    timeLt b a = false := by
  rcases (timeLt_iff a b).mp h with h1 | ⟨heq, h3⟩
  · rw [timeLt_eq_false_iff]
    refine ⟨cellLt_asymm _ _ h1, ?_⟩
    intro heq
    rw [heq] at h1
    rw [cellLt_irrefl] at h1
    cases h1
  · rw [timeLt_eq_false_iff]
    rw [heq]
    exact ⟨cellLt_irrefl _, fun _ => cellLt_asymm _ _ h3⟩

theorem rowLe_trans : Transitive rowLe := by
  intro a b c h1 h2
  rw [rowLe, timeLt_eq_false_iff] at h1 h2 ⊢
  refine ⟨cellLt_neg_trans a.start b.start c.start h1.1 h2.1, ?_⟩
  intro heq
  have h2s : cellLt a.start b.start = false := by
    rw [← heq]
    exact h2.1
  have hba : b.start = a.start :=
    cellLt_eq_of_neg_both b.start a.start h1.1 h2s
  have hcb : c.start = b.start := by rw [heq, hba]
  exact cellLt_neg_trans a.stop b.stop c.stop (h1.2 hba) (h2.2 hcb)

theorem insertSorted_chain (x : Row) :
    ∀ l : List Row, List.Chain' rowLe l →
      List.Chain' rowLe (insertSorted x l) := by
  intro l
  induction l with
  | nil => intro _; simp [insertSorted]
  | cons y ys ih =>
    intro hch
    rw [insertSorted]
    by_cases h : timeLt x y = true
    · rw [if_pos h]
      refine List.chain'_cons.mpr ⟨timeLt_asymm x y h, hch⟩
    · rw [if_neg h]
      refine List.chain'_cons'.mpr ⟨?_, ih hch.tail⟩
      intro b hb
      cases ys with
      | nil =>
        simp [insertSorted] at hb
        subst hb
        show timeLt x y = false
        exact Bool.eq_false_iff.mpr h
      | cons z zs =>
        rw [insertSorted] at hb
        by_cases h2 : timeLt x z = true
        · rw [if_pos h2] at hb
          simp at hb
          subst hb
          show timeLt x y = false
          exact Bool.eq_false_iff.mpr h
        · rw [if_neg h2] at hb
          simp at hb
          subst hb
          exact (List.chain'_cons.mp hch).1

theorem sortRows_chain (l : List Row) : List.Chain' rowLe (sortRows l) := by
  suffices h : ∀ (l acc : List Row), List.Chain' rowLe acc →
      List.Chain' rowLe (l.foldl (fun acc x => insertSorted x acc) acc) by
    exact h l [] (by simp)
  intro l
  induction l with
  | nil => intro acc hacc; simpa using hacc
  | cons y ys ih =>
    intro acc hacc
    simp only [List.foldl_cons]
    exact ih _ (insertSorted_chain y acc hacc)

theorem chain'_pairwise_rowLe {l : List Row} (h : List.Chain' rowLe l) :
    List.Pairwise rowLe l := by
  letI : IsTrans Row rowLe := ⟨fun a b c hab hbc => rowLe_trans hab hbc⟩
  exact List.chain'_iff_pairwise.mp h

/-! ### C6 — run monotonicity within a group -/

theorem chunkRuns_heads_sublist :
    ∀ l : List Classified,
      ((chunkRuns l).map (fun p => p.1)).Sublist l := by
  intro l
  induction l with
  | nil => simp [chunkRuns]
  | cons c cs ih =>
    cases h : chunkRuns cs with
    | nil =>
      rw [chunkRuns_nil_of c cs h]
      simp
    | cons hd rest =>
      obtain ⟨d, ds⟩ := hd
      rw [h] at ih
      by_cases e : (c.runId == d.runId) = true
      · rw [chunkRuns_cons_cons c cs d ds rest h, if_pos e]
        simp only [List.map_cons] at ih ⊢
        exact List.Sublist.cons₂ c
          ((List.sublist_cons_self d _).trans ih)
      · rw [chunkRuns_cons_cons c cs d ds rest h, if_neg e]
        simp only [List.map_cons] at ih ⊢
        exact List.Sublist.cons₂ c ih

theorem foldMin_all_none :
    ∀ l : List Cell, (∀ x ∈ l, x = none) → foldMin l = none := by
  intro l
  induction l with
  | nil => intro _; rfl
  | cons x xs ih =>
    intro h
    have hx := h x (List.mem_cons_self _ _)
    subst hx
    rw [foldMin]
    exact ih (fun y hy => h y (List.mem_cons_of_mem _ hy))

theorem foldMin_lower (a : Int) :
    ∀ l : List Cell, (∀ y ∈ l, cellLt y (some a) = false) →
      foldMin l = none ∨ ∃ b, foldMin l = some b ∧ a ≤ b := by
  intro l
  induction l with
  | nil => intro _; exact Or.inl rfl
  | cons x xs ih =>
    intro h
    have hx := h x (List.mem_cons_self _ _)
    have hxs := ih (fun y hy => h y (List.mem_cons_of_mem _ hy))
    cases x with
    | none =>
      rw [foldMin]
      exact hxs
    | some v =>
      have hav : a ≤ v := by
        simp [cellLt] at hx
        omega
      rw [foldMin]
      rcases hxs with hnone | ⟨b, hb, hab⟩
      · rw [hnone]
        exact Or.inr ⟨v, rfl, hav⟩
      · rw [hb]
        exact Or.inr ⟨min v b, rfl, le_min hav hab⟩

theorem foldMin_head (c : Cell) (cs : List Cell)
    (h : ∀ y ∈ cs, cellLt y c = false) :
    foldMin (c :: cs) = c := by
  cases c with
  | none =>
    rw [foldMin]
    apply foldMin_all_none
    intro x hx
    have := h x hx
    cases x with
    | none => rfl
    | some v => simp [cellLt] at this
  | some a =>
    rw [foldMin]
    rcases foldMin_lower a cs h with hnone | ⟨b, hb, hab⟩
    · rw [hnone]
    · rw [hb]
      simp [min_eq_left hab]

theorem classify_row_pairwise (f : Option Row → Row → Bool) (g : List Row)
    (hg : List.Pairwise rowLe g) :
    List.Pairwise (fun a b : Classified => rowLe a.row b.row)
      (classifyGroup f g) := by
  have hmap := classifyAux_map_row f g none 0
  rw [← List.pairwise_map (f := fun c : Classified => c.row)]
  rw [classifyGroup]
  rw [hmap]
  exact hg

theorem aggRun_start_eq_head (hasEI : Bool) (k : Key)
    (p : Classified × List Classified)
    (hpw : List.Pairwise (fun a b : Classified => rowLe a.row b.row)
      (p.1 :: p.2)) :
    (aggRun hasEI k p.1 p.2).start = p.1.row.start := by
  show foldMin ((p.1 :: p.2).map (fun x => x.row.start)) = p.1.row.start
  rw [List.map_cons]
  apply foldMin_head
  intro y hy
  obtain ⟨c, hc, rfl⟩ := List.mem_map.mp hy
  have := (List.pairwise_cons.mp hpw).1 c hc
  rw [rowLe, timeLt_eq_false_iff] at this
  exact this.1

theorem groupRuns_start_chain (f : Option Row → Row → Bool) (hasEI : Bool)
    (stream : List Row) (k : Key) :
    List.Chain' (fun R1 R2 : Run => cellLt R2.start R1.start = false)
      (groupRuns f hasEI stream k) := by
  have hrows : List.Pairwise rowLe (groupSorted stream k) :=
    chain'_pairwise_rowLe (sortRows_chain (groupRows stream k))
  have hcl := classify_row_pairwise f (groupSorted stream k) hrows
  have hch := classifyAux_runId_chain f (groupSorted stream k) none 0
  rw [groupRuns, List.chain'_map]
  have hheads0 : List.Pairwise rowLe
      ((chunkRuns (classifyGroup f (groupSorted stream k))).map
        (fun q => q.1.row)) := by
    have h1 := List.Sublist.map (fun c : Classified => c.row)
      (chunkRuns_heads_sublist (classifyGroup f (groupSorted stream k)))
    rw [List.map_map] at h1
    rw [classifyGroup, classifyAux_map_row] at h1
    exact List.Pairwise.sublist h1 hrows
  have hheads : List.Pairwise
      (fun p q : Classified × List Classified => rowLe p.1.row q.1.row)
      (chunkRuns (classifyGroup f (groupSorted stream k))) :=
    List.pairwise_map.mp hheads0
  have hstart : ∀ p ∈ chunkRuns (classifyGroup f (groupSorted stream k)),
      (aggRun hasEI k p.1 p.2).start = p.1.row.start := by
    intro p hp
    apply aggRun_start_eq_head
    have hfil := chunkRuns_block_filter _ hch p hp
    rw [← hfil]
    exact List.Pairwise.sublist (List.filter_sublist _) hcl
  apply List.Pairwise.chain'
  apply hheads.imp_of_mem
  intro p q hpmem hqmem hle
  rw [hstart p hpmem, hstart q hqmem]
  rw [rowLe, timeLt_eq_false_iff] at hle
  exact hle.1

/-- Two overlapping same-group rows with different AOIs, refuting the
no-overlap half of C6. -/
def exDf6 : List Row :=
  [mkRow (some 0) (some 20) (some 20) "A", mkRow (some 5) (some 25) (some 20) "B"]

/-- C6 counterexample: the group `exDf6` yields two runs, (0, 20) then
(5, 25), in run-id order; the first run's Stop (20) exceeds the second
run's Start (5), so runs of one group can overlap in time. -/
theorem runs_can_overlap :
    (groupRunsLe20 false exDf6 exKey).map (fun R => (R.start, R.stop))
      = [(some 0, some 20), (some 5, some 25)] ∧
    cellLt (some 5) (some 20) = true :=
  ⟨ rfl, rfl ⟩

/-- C6 amended: within every group, the runs taken in run-id order have
non-decreasing Start values; the no-overlap half of the claim is false
(overlapping input intervals yield overlapping runs, see
`runs_can_overlap`). -/
theorem run_starts_monotone : ∀ (hasEI : Bool) (df : List Row) (k : Key),
    List.Chain' (fun R1 R2 : Run => cellLt R2.start R1.start = false)
      (groupRunsLe20 hasEI df k) :=
  fun hasEI df k => groupRuns_start_chain newRunLe20 hasEI (le20Rows df) k

/-! ### C7 — re-aggregation of an already-merged run set -/

theorem foldMin_single (x : Cell) : foldMin [x] = x := by
  cases x <;> rfl

theorem foldMax_single (x : Cell) : foldMax [x] = x := by
  cases x <;> rfl

theorem groupRuns_key (f : Option Row → Row → Bool) (hasEI : Bool)
    (stream : List Row) (k : Key) :
    ∀ R ∈ groupRuns f hasEI stream k, R.key = k := by
  intro R hR
  obtain ⟨p, _, rfl⟩ := List.mem_map.mp hR
  rfl

theorem insertSorted_append (x : Row) :
    ∀ l : List Row, (∀ y ∈ l, timeLt x y = false) →
      insertSorted x l = l ++ [x] := by
  intro l
  induction l with
  | nil => intro _; rfl
  | cons y ys ih =>
    intro h
    rw [insertSorted]
    have hy : timeLt x y = false := h y (List.mem_cons_self _ _)
    rw [if_neg (by rw [hy]; exact Bool.false_ne_true)]
    rw [ih (fun z hz => h z (List.mem_cons_of_mem _ hz))]
    rfl

theorem sortRows_append_singleton (l : List Row) (x : Row) :
    sortRows (l ++ [x]) = insertSorted x (sortRows l) := by
  simp [sortRows, List.foldl_append]

theorem sortRows_eq_self : ∀ l : List Row,
    List.Chain' rowLe l → sortRows l = l := by
  intro l
  induction l using List.reverseRecOn with
  | nil => intro _; rfl
  | append_singleton l' x ih =>
    intro hch
    have hpw := chain'_pairwise_rowLe hch
    have hcross := (List.pairwise_append.mp hpw).2.2
    have hl' : List.Chain' rowLe l' := (List.chain'_append.mp hch).1
    rw [sortRows_append_singleton, ih hl']
    apply insertSorted_append
    intro y hy
    exact hcross y hy x (by simp)

theorem classifyAux_distinct (f : Option Row → Row → Bool) :
    ∀ (l : List Row) (prev : Option Row) (rid : Nat),
      (∀ b ∈ l.head?, f prev b = true) →
      List.Chain' (fun a b : Row => f (some a) b = true) l →
      List.Chain' (fun a b : Classified => (a.runId == b.runId) = false)
        (classifyAux f prev rid l) := by
  intro l
  induction l with
  | nil => intros; simp [classifyAux]
  | cons r rs ih =>
    intro prev rid hh hch
    have hfr : f prev r = true := hh r (by simp)
    refine List.chain'_cons'.mpr ⟨?_, ?_⟩
    · intro b hb
      cases rs with
      | nil => simp [classifyAux] at hb
      | cons s ss =>
        have hfs : f (some r) s = true := (List.chain'_cons.mp hch).1
        rw [classifyAux] at hb
        simp at hb
        subst hb
        simp only [hfr, hfs, if_true]
        rw [beq_eq_false_iff_ne]
        omega
    · refine ih (some r) _ ?_ hch.tail
      intro b hb
      cases rs with
      | nil => simp at hb
      | cons s ss =>
        simp at hb
        subst hb
        exact (List.chain'_cons.mp hch).1

theorem chunkRuns_singletons :
    ∀ l : List Classified,
      List.Chain' (fun a b : Classified => (a.runId == b.runId) = false) l →
      chunkRuns l = l.map (fun c => (c, [])) := by
  intro l
  induction l with
  | nil => intro _; rfl
  | cons c cs ih =>
    intro hch
    have hcs := ih hch.tail
    cases cs with
    | nil => rfl
    | cons d ds =>
      have hne : (c.runId == d.runId) = false := (List.chain'_cons.mp hch).1
      have h : chunkRuns (d :: ds) = (d, []) :: ds.map (fun c => (c, [])) := by
        rw [hcs]
        rfl
      rw [chunkRuns_cons_cons c (d :: ds) d [] (ds.map (fun c => (c, []))) h]
      rw [if_neg (by rw [hne]; exact Bool.false_ne_true)]
      rfl

theorem classify_singleton_sigs (k : Key) :
    ∀ (l : List Run) (prev : Option Row) (rid : Nat),
      (∀ R ∈ l, R.key = k) →
      ((classifyAux newRunLe20 prev rid (l.map runToRow)).map
        (fun c => runSig (aggRun false k c []))) = l.map runSig := by
  intro l
  induction l with
  | nil => intros; rfl
  | cons R Rs ih =>
    intro prev rid hk
    have hRk : R.key = k := hk R (List.mem_cons_self _ _)
    simp only [List.map_cons, classifyAux]
    congr 1
    · simp [runSig, aggRun, runToRow, foldMin_single, foldMax_single,
        sumCells, hRk]
    · exact ih (some (runToRow R)) _ (fun S hS => hk S (List.mem_cons_of_mem _ hS))

/-- C7 amended: feeding the MergedRuns output of the at-most merge back
through the same merge with the same group key yields the same runs — their
GroupKey, Start, Stop, Duration and AOI agree position by position (the
bookkeeping SegmentsMerged restarts at 1) — provided every produced run
still satisfies the partition predicate (Duration at most T), the run list
is still sorted by (Start, Stop), and no two adjacent runs satisfy the
continuity predicate.  Without these provisos re-aggregation changes the
run set (see `reaggregation_not_idempotent`). -/
theorem reaggregation_idempotent (df : List Row) (k : Key)
    (runs : List Run) (hruns : runs = groupRunsLe20 false df k)
    (h0 : List.Chain' (fun a b : Run =>
        timeLt (runToRow b) (runToRow a) = false) runs)
    (h1 : ∀ R ∈ runs, R.duration ≤ DURATION_TARGET)
    (h2 : List.Chain' (fun a b : Run =>
        newRunLe20 (some (runToRow a)) (runToRow b) = true) runs) :
    (groupRunsLe20 false (runs.map runToRow) k).map runSig
      = runs.map runSig := by
  have hkey : ∀ R ∈ runs, R.key = k := by
    subst hruns
    exact groupRuns_key newRunLe20 false (le20Rows df) k
  have hle : le20Rows (runs.map runToRow) = runs.map runToRow := by
    apply List.filter_eq_self.mpr
    intro r hr
    obtain ⟨R, hR, rfl⟩ := List.mem_map.mp hr
    show durLe (runToRow R) = true
    simp [durLe, runToRow]
    exact h1 R hR
  have hgr : groupRows (runs.map runToRow) k = runs.map runToRow := by
    apply List.filter_eq_self.mpr
    intro r hr
    obtain ⟨R, hR, rfl⟩ := List.mem_map.mp hr
    show ((runToRow R).key == k) = true
    rw [beq_iff_eq]
    show R.key = k
    exact hkey R hR
  have hchain : List.Chain' rowLe (runs.map runToRow) :=
    (List.chain'_map runToRow).mpr h0
  have hnewchain : List.Chain'
      (fun a b : Row => newRunLe20 (some a) b = true) (runs.map runToRow) :=
    (List.chain'_map runToRow).mpr h2
  have hdist := classifyAux_distinct newRunLe20 (runs.map runToRow) none 0
    (fun b _ => rfl) hnewchain
  simp only [groupRunsLe20, groupRuns, groupSorted]
  rw [hle, hgr, sortRows_eq_self _ hchain]
  simp only [classifyGroup] at hdist ⊢
  rw [chunkRuns_singletons _ hdist]
  rw [List.map_map, List.map_map]
  exact classify_singleton_sigs k runs none 0 hkey

/-- Two contiguous same-AOI 20 ms rows whose merged run has Duration 40. -/
def exDf7 : List Row :=
  [mkRow (some 0) (some 20) (some 20) "A", mkRow (some 20) (some 40) (some 20) "A"]

/-- C7 counterexample: re-aggregation is not idempotent as claimed.  The
group `exDf7` merges into one run of Duration 40; feeding that run back
through the same merge routes it to the pass-through side (40 > 20), so the
second MergedRuns output is empty and differs from the first. -/
theorem reaggregation_not_idempotent :
    (groupRunsLe20 false
        ((groupRunsLe20 false exDf7 exKey).map runToRow) exKey).map runSig
      ≠ (groupRunsLe20 false exDf7 exKey).map runSig := by
  decide

/-- Two runs satisfying the provisos of the amended C7 theorem. -/
def exDf7w : List Row :=
  [mkRow (some 0) (some 20) (some 10) "A", mkRow (some 50) (some 60) (some 5) "B"]

/-- Witness for the amended C7 theorem at a concrete input. -/
theorem reaggregation_idempotent_witness :
    (List.Chain' (fun a b : Run =>
        timeLt (runToRow b) (runToRow a) = false)
      (groupRunsLe20 false exDf7w exKey)) ∧
    (∀ R ∈ groupRunsLe20 false exDf7w exKey, R.duration ≤ DURATION_TARGET) ∧
    (List.Chain' (fun a b : Run =>
        newRunLe20 (some (runToRow a)) (runToRow b) = true)
      (groupRunsLe20 false exDf7w exKey)) ∧
    ((groupRunsLe20 false
        ((groupRunsLe20 false exDf7w exKey).map runToRow) exKey).map runSig
      = (groupRunsLe20 false exDf7w exKey).map runSig) := by
  have hlit : groupRunsLe20 false exDf7w exKey
      = [⟨exKey, 1, some 0, some 20, 10, "A", 1, none⟩,
         ⟨exKey, 2, some 50, some 60, 5, "B", 1, none⟩] := by decide
  have h0 : List.Chain' (fun a b : Run =>
      timeLt (runToRow b) (runToRow a) = false)
      (groupRunsLe20 false exDf7w exKey) := by
    rw [hlit]
    exact List.chain'_cons.mpr ⟨by decide, by simp⟩
  have h1 : ∀ R ∈ groupRunsLe20 false exDf7w exKey,
      R.duration ≤ DURATION_TARGET := by decide
  have h2 : List.Chain' (fun a b : Run =>
      newRunLe20 (some (runToRow a)) (runToRow b) = true)
      (groupRunsLe20 false exDf7w exKey) := by
    rw [hlit]
    exact List.chain'_cons.mpr ⟨by decide, by simp⟩
  exact ⟨h0, h1, h2,
    reaggregation_idempotent exDf7w exKey _ rfl h0 h1 h2⟩

/-! ### C10 — the two variants coincide on uniform 20 ms tables -/

theorem newRun_agree (p c : Row) (hp : p.duration = some DURATION_TARGET)
    (hc : c.duration = some DURATION_TARGET) :
    newRunLe20 (some p) c = newRun20 (some p) c := by
  rw [newRunLe20, newRun20, hp, hc]
  have h20 : cellEq (some DURATION_TARGET) (some DURATION_TARGET) = true := by
    simp [cellEq]
  rw [h20]
  simp [Bool.and_true]

theorem classify_agree :
    ∀ (l : List Row) (prev : Option Row) (rid : Nat),
      (∀ r ∈ l, r.duration = some DURATION_TARGET) →
      (∀ p, prev = some p → p.duration = some DURATION_TARGET) →
      classifyAux newRunLe20 prev rid l = classifyAux newRun20 prev rid l := by
  intro l
  induction l with
  | nil => intros; rfl
  | cons r rs ih =>
    intro prev rid hall hprev
    have hr : r.duration = some DURATION_TARGET :=
      hall r (List.mem_cons_self _ _)
    have hf : newRunLe20 prev r = newRun20 prev r := by
      cases prev with
      | none => rfl
      | some p => exact newRun_agree p r (hprev p rfl) hr
    simp only [classifyAux, hf]
    congr 1
    exact ih (some r) _ (fun x hx => hall x (List.mem_cons_of_mem _ hx))
      (fun p hp => by injection hp with h; rw [← h]; exact hr)

/-- C10: on a table whose rows all have Duration 20 (with the EventIndex
column present), the exact-mode merge and the at-most-mode merge produce
identical MergedRuns tables: the partition predicates coincide, and the
gated and ungated step-20 fallbacks coincide because every duration in the
mergeable stream equals 20. -/
theorem variants_agree_on_uniform20 (df : List Row)
    (hall : ∀ r ∈ df, r.duration = some DURATION_TARGET) :
    mergedRunsTable20 df = mergedRunsTableLe20 true df := by
  have h20 : rows20 df = df :=
    List.filter_eq_self.mpr (fun r hr => by simp [durEq20, hall r hr])
  have hle : le20Rows df = df :=
    List.filter_eq_self.mpr (fun r hr => by simp [durLe, hall r hr])
  rw [mergedRunsTable20, mergedRunsTableLe20, h20, hle]
  congr 1
  apply List.map_congr_left
  intro k _
  rw [groupRuns20, groupRunsLe20, h20, hle]
  have hcl : classifyGroup newRunLe20 (groupSorted df k)
      = classifyGroup newRun20 (groupSorted df k) := by
    apply classify_agree
    · intro r hr
      rw [groupSorted, mem_sortRows] at hr
      exact hall r (List.mem_filter.mp hr).1
    · intro p hp
      simp at hp
  rw [groupRuns, groupRuns, hcl]

/-- Witness for the C10 theorem at a concrete uniform-duration table. -/
theorem variants_agree_on_uniform20_witness :
    (∀ r ∈ exDf2, r.duration = some DURATION_TARGET) ∧
    mergedRunsTable20 exDf2 = mergedRunsTableLe20 true exDf2 :=
  ⟨ by decide, variants_agree_on_uniform20 exDf2 (by decide) ⟩
